import Mathlib

/-!
Shallow embedding of the report-generation service (src/app.py, with
src/main.py a near-duplicate), covering the narrative parser
`parse_full_report`, the score-color logic of `create_score_chart` and
`create_qa_table`, the story assembly and the request validation of
`generate_report_api`.

Strings are modelled as Lean `String`/`List Char`; the Python regular
expression `Question:\s*(.+?)\s*\n\s*Score:\s*(\d+)\s*\n\s*Comment:\s*(.+?)
(?=\n\s*Question:|\n\s*[0-9]+\.|\Z)` (flags DOTALL and IGNORECASE) is
embedded as an explicit backtracking matcher whose alternatives are explored
in the engine's preference order: a greedy piece tries its longest
consumption first, a lazy piece its shortest, and pieces to the left vary
slower than pieces to the right.  `re.findall` semantics: scan left to
right, on a match emit the groups and resume at the match end, otherwise
advance one character.
-/

namespace Report

/-- Python `\s` for the ASCII range: space, tab, newline, carriage return,
vertical tab, form feed. -/
def isPySpace (c : Char) : Bool :=
  c == ' ' || c == '\t' || c == '\n' || c == '\r' ||
  c == Char.ofNat 11 || c == Char.ofNat 12

/-- Case-sensitive literal test: does `s` start with `lit`? -/
def startsWithL : List Char → List Char → Bool
  | [], _ => true
  | _ :: _, [] => false
  | a :: la, b :: lb => a == b && startsWithL la lb

/-- Case-insensitive literal consumption (IGNORECASE literals): if `s`
starts with `lit` up to ASCII case, return the rest of `s`. -/
def stripLitCI : List Char → List Char → Option (List Char)
  | [], s => some s
  | _ :: _, [] => none
  | a :: la, b :: lb => if a.toLower == b.toLower then stripLitCI la lb else none

/-- Case-insensitive literal test. -/
def startsWithCI (lit s : List Char) : Bool := (stripLitCI lit s).isSome

/-- Python `str.strip()`: drop leading and trailing whitespace. -/
def pyStrip (s : List Char) : List Char :=
  ((s.dropWhile isPySpace).reverse.dropWhile isPySpace).reverse

/-- Python `str.replace(old, new)` (all non-overlapping occurrences, left to
right, the replacement text is not rescanned), fuel-driven so that the kernel
can evaluate it; `old` is nonempty at every use site, so the fuel
`s.length + 1` is never exhausted. -/
def pyReplaceF (old new : List Char) : Nat → List Char → List Char
  | 0, s => s
  | _ + 1, [] => []
  | fuel + 1, c :: t =>
    if startsWithL old (c :: t) then
      new ++ pyReplaceF old new fuel ((c :: t).drop old.length)
    else
      c :: pyReplaceF old new fuel t

def pyReplace (old new s : List Char) : List Char :=
  pyReplaceF old new (s.length + 1) s

/-- `str.replace("\n", " ")` specialised (single-character pattern). -/
def replaceNl (s : List Char) : List Char :=
  s.map (fun c => if c == '\n' then ' ' else c)

/-- Value of a digit string; only applied to all-digit tokens. -/
def digitsToNat (l : List Char) : Nat :=
  l.foldl (fun a c => a * 10 + (c.toNat - 48)) 0

/-- Python `int()` on the tokens the score group can capture: an all-digit,
nonempty string parses to its value, anything else raises `ValueError`
(here: `none`). -/
def pyInt? (l : List Char) : Option Nat :=
  if !l.isEmpty && l.all Char.isDigit then some (digitsToNat l) else none

/-! ### The backtracking matcher for the Q/A block pattern -/

/-- Length of the maximal whitespace prefix (what `\s*` can consume at most). -/
def wsRun : List Char → Nat
  | c :: t => if isPySpace c then wsRun t + 1 else 0
  | [] => 0

/-- Length of the maximal digit prefix (what `\d+` can consume at most). -/
def digitRun : List Char → Nat
  | c :: t => if c.isDigit then digitRun t + 1 else 0
  | [] => 0

/-- Greedy `\s*` against continuation `k`: try the drops `n, n-1, …, 0`
in that order (`n` is instantiated with the maximal whitespace run). -/
def greedyWsFrom {α : Type} (k : List Char → Option α) (s : List Char) :
    Nat → Option α
  | 0 => k s
  | n + 1 =>
    match k (s.drop (n + 1)) with
    | some r => some r
    | none => greedyWsFrom k s n

def greedyWs {α : Type} (k : List Char → Option α) (s : List Char) : Option α :=
  greedyWsFrom k s (wsRun s)

/-- Greedy `(\d+)` against continuation `k` (capture, rest): try the splits
`n, n-1, …, 1`; at least one digit is required. -/
def greedyDigitsFrom {α : Type} (k : List Char → List Char → Option α)
    (s : List Char) : Nat → Option α
  | 0 => none
  | n + 1 =>
    match k (s.take (n + 1)) (s.drop (n + 1)) with
    | some r => some r
    | none => greedyDigitsFrom k s n

def greedyDigits {α : Type} (k : List Char → List Char → Option α)
    (s : List Char) : Option α :=
  greedyDigitsFrom k s (digitRun s)

/-- Lazy `(.+?)` (DOTALL: any character) against continuation `k`
(capture, rest): grow the capture one character at a time, shortest first. -/
def lazyPlusGo {α : Type} (k : List Char → List Char → Option α)
    (cap : List Char) : List Char → Option α
  | [] => none
  | c :: t =>
    match k (cap ++ [c]) t with
    | some r => some r
    | none => lazyPlusGo k (cap ++ [c]) t

def lazyPlus {α : Type} (k : List Char → List Char → Option α)
    (s : List Char) : Option α :=
  lazyPlusGo k [] s

def qlit : List Char := "Question:".data
def slit : List Char := "Score:".data
def clit : List Char := "Comment:".data
def ovLit : List Char := "Overall Evaluation:".data

/-- `\s*P` existence test (used inside the zero-width lookahead, where only
whether some whitespace skip makes `P` hold matters). -/
def wsThen (p : List Char → Bool) : List Char → Bool
  | [] => p []
  | c :: t => p (c :: t) || (isPySpace c && wsThen p t)

/-- `[0-9]+\.` at the start of the input: one or more ASCII digits directly
followed by a period. -/
def digitsDotTail : List Char → Bool
  | [] => false
  | c :: t => if c == '.' then true else c.isDigit && digitsDotTail t

def digitsDot : List Char → Bool
  | [] => false
  | c :: t => c.isDigit && digitsDotTail t

/-- The lookahead `(?=\n\s*Question:|\n\s*[0-9]+\.|\Z)`. -/
def lookaheadOk : List Char → Bool
  | [] => true
  | c :: t =>
    c == '\n' && (wsThen (fun u => startsWithCI qlit u) t || wsThen digitsDot t)

/-- One raw match of the Q/A pattern: the three captures and the input
remaining after the match (the lookahead is zero-width). -/
structure QAMatch where
  q : List Char
  score : List Char
  comment : List Char
  rest : List Char
deriving DecidableEq, Repr

/-- `\s*(.+?)(?=…)` — the comment capture. -/
def stage5 (q sc : List Char) (s : List Char) : Option QAMatch :=
  greedyWs (fun s1 =>
    lazyPlus (fun cap rest =>
      if lookaheadOk rest then some ⟨q, sc, cap, rest⟩ else none) s1) s

/-- `\s*\n\s*Comment:` then `stage5`. -/
def stage4 (q sc : List Char) (s : List Char) : Option QAMatch :=
  greedyWs (fun s1 =>
    match s1 with
    | '\n' :: s2 =>
      greedyWs (fun s3 =>
        match stripLitCI clit s3 with
        | some s4 => stage5 q sc s4
        | none => none) s2
    | _ => none) s

/-- `\s*(\d+)` then `stage4`. -/
def stage3 (q : List Char) (s : List Char) : Option QAMatch :=
  greedyWs (fun s1 => greedyDigits (fun tok s2 => stage4 q tok s2) s1) s

/-- `\s*\n\s*Score:` then `stage3`. -/
def stage2 (q : List Char) (s : List Char) : Option QAMatch :=
  greedyWs (fun s1 =>
    match s1 with
    | '\n' :: s2 =>
      greedyWs (fun s3 =>
        match stripLitCI slit s3 with
        | some s4 => stage3 q s4
        | none => none) s2
    | _ => none) s

/-- `\s*(.+?)` — the question capture — then `stage2`. -/
def stage1 (s : List Char) : Option QAMatch :=
  greedyWs (fun s1 => lazyPlus (fun q rest => stage2 q rest) s1) s

/-- Attempt to match the whole pattern at the start of `s`. -/
def matchBlock (s : List Char) : Option QAMatch :=
  match stripLitCI qlit s with
  | some s1 => stage1 s1
  | none => none

/-- `re.findall` scan, fuel-driven (each step either consumes the matched
region, which is nonempty, or advances one character, so `s.length + 1`
fuel always suffices — see `findAll_eq`). -/
def findAllF (fuel : Nat) (s : List Char) :
    List (List Char × List Char × List Char) :=
  match fuel with
  | 0 => []
  | fuel + 1 =>
    match matchBlock s with
    | some m => (m.q, m.score, m.comment) :: findAllF fuel m.rest
    | none =>
      match s with
      | [] => []
      | _ :: t => findAllF fuel t

def findAll (s : List Char) : List (List Char × List Char × List Char) :=
  findAllF (s.length + 1) s

/-! ### The remainder scan and `parse_full_report` -/

/-- Does `re.search(r"(2\.\s*Overall Evaluation:|Overall Evaluation:)", …,
re.IGNORECASE)` match at this position? -/
def markerAt (s : List Char) : Bool :=
  (match s with
   | c1 :: c2 :: t =>
     c1 == '2' && c2 == '.' && wsThen (fun u => startsWithCI ovLit u) t
   | _ => false)
  || startsWithCI ovLit s

/-- Leftmost position at which the marker pattern matches; returns the
suffix starting there. -/
def searchMarker : List Char → Option (List Char)
  | [] => none
  | c :: t => if markerAt (c :: t) then some (c :: t) else searchMarker t

/-- Lines 58–64 of src/app.py: the remaining text after the first
evaluation marker, trimmed, or the empty string. -/
def extractRemaining (text : String) : String :=
  match searchMarker text.data with
  | some u => String.mk (pyStrip u)
  | none => ""

/-- One parsed question/score/comment record. -/
structure Record where
  q : String
  score : Nat
  comment : String
deriving DecidableEq, Repr

def yourLit : List Char := "Your ".data

/-- Lines 52–56 of src/app.py: clean each raw match and convert the score
with `int()`; the first failing conversion aborts the whole parse. -/
def convertAll : List (List Char × List Char × List Char) →
    Except String (List Record)
  | [] => .ok []
  | (q, s, c) :: rest =>
    match pyInt? s with
    | some n =>
      match convertAll rest with
      | .ok l =>
          .ok (⟨String.mk (pyStrip (pyReplace yourLit [] q)), n,
               String.mk (replaceNl (pyStrip c))⟩ :: l)
      | .error e => .error e
    | none => .error ("invalid literal for int with base 10: " ++ String.mk s)

/-- `parse_full_report` (src/app.py lines 47–66): structured records plus
the remaining narrative; an exception is modelled as `Except.error`. -/
def parse_full_report (text : String) : Except String (List Record × String) :=
  match convertAll (findAll text.data) with
  | .ok recs => .ok (recs, extractRemaining text)
  | .error e => .error e

/-! ### Score colors, chart and table builders -/

/-- The per-bar fill color of `create_score_chart` (src/app.py lines 90–96):
`val <= 3` red, `elif val <= 6` amber, else green. -/
def chartBarColor (val : Int) : String :=
  if val ≤ 3 then "#e74c3c" else if val ≤ 6 then "#f1c40f" else "#2ecc71"

/-- The score-cell color of `create_qa_table` (src/app.py line 117):
`"green" if s > 6 else "orange" if s > 3 else "red"`. -/
def tableScoreColor (s : Int) : String :=
  if s > 6 then "green" else if s > 3 then "orange" else "red"

/-- Severity bands of the score-color policy. -/
inductive Band where
  | low
  | mid
  | high
deriving DecidableEq, Repr

/-- Which band each chart hex color denotes. -/
def bandOfHex (c : String) : Option Band :=
  if c = "#e74c3c" then some .low
  else if c = "#f1c40f" then some .mid
  else if c = "#2ecc71" then some .high
  else none

/-- Which band each table color name denotes. -/
def bandOfName (c : String) : Option Band :=
  if c = "red" then some .low
  else if c = "orange" then some .mid
  else if c = "green" then some .high
  else none

/-- The bar-chart visual: scores, positional labels and per-bar colors
(the fixed geometry and axis bounds of the `VerticalBarChart` are carried
along as constants). -/
structure ScoreChart where
  data : List Nat
  labels : List String
  barColors : List String
  valueMin : Nat
  valueMax : Nat
  width : Nat
deriving DecidableEq, Repr

/-- `create_score_chart` (src/app.py lines 69–99): `None` on an empty
record list, otherwise one bar per record in order, labelled "Q1".."Qn",
colored by the chart's inline thresholds. -/
def create_score_chart (parsed_data : List Record) : Option ScoreChart :=
  if parsed_data.isEmpty then none
  else
    let data := parsed_data.map (·.score)
    some
      { data := data
        labels := (List.range data.length).map (fun i => "Q" ++ toString (i + 1))
        barColors := data.map (fun v => chartBarColor (Int.ofNat v))
        valueMin := 0
        valueMax := 10
        width := 496 }

/-- One table body row: question text, comment text, score-cell color and
score-cell text (the source renders the last two as font markup). -/
structure QARow where
  question : String
  comment : String
  scoreColor : String
  scoreText : String
deriving DecidableEq, Repr

/-- The styled table visual. -/
structure QATable where
  header : List String
  rows : List QARow
  colWidths : List Nat
  repeatRows : Nat
deriving DecidableEq, Repr

/-- `create_qa_table` (src/app.py lines 102–140): `None` on an empty record
list, otherwise a header row plus one row per record with the score cell
"`s`/10" colored by the table's inline thresholds. -/
def create_qa_table (parsed_qa : List Record) : Option QATable :=
  if parsed_qa.isEmpty then none
  else
    some
      { header := ["Question", "Analysis / Feedback", "Score"]
        rows := parsed_qa.map (fun r =>
          { question := r.q
            comment := r.comment
            scoreColor := tableScoreColor (Int.ofNat r.score)
            scoreText := toString r.score ++ "/10" })
        colWidths := [140, 286, 70]
        repeatRows := 1 }

/-! ### Story assembly and the request handler -/

/-- A flowable appended to the story by `generate_report_api`. -/
inductive Flowable where
  | nextPageTemplate (name : String)
  | paragraph (text : String) (style : String)
  | chart (d : ScoreChart)
  | spacer (w h : Nat)
  | tableOpt (t : Option QATable)
deriving DecidableEq, Repr

/-- The remaining-text formatting of src/app.py lines 303–307: newlines to
`<br/>`, then the four literal `re.sub` bold-wrappings, applied in the
source's order (each sub replaces every occurrence, case-sensitively;
for `Final Recommendation:` two breaks are also inserted). -/
def formatRemaining (remaining_text : String) : String :=
  let t1 := pyReplace "\n".data "<br/>".data remaining_text.data
  let t2 := pyReplace "Overall Evaluation:".data
    "<b>Overall Evaluation:</b>".data t1
  let t3 := pyReplace "Final Recommendation:".data
    "<br/><br/><b>Final Recommendation:</b>".data t2
  let t4 := pyReplace "Strengths:".data "<b>Strengths:</b>".data t3
  let t5 := pyReplace "Weaknesses:".data "<b>Weaknesses:</b>".data t4
  String.mk t5

/-- The story built in src/app.py lines 279–309: template switch, then
(records nonempty) heading + chart + spacer and heading + spacer + table +
spacer, then (remainder nonempty) the formatted remainder paragraph.
The source appends the result of `create_qa_table` unconditionally inside
the `if qa_data:` branch, hence `tableOpt`. -/
def buildStory (qa_data : List Record) (remaining_text : String) :
    List Flowable :=
  let story0 : List Flowable := [.nextPageTemplate "Later"]
  let story1 :=
    if qa_data.isEmpty then story0
    else
      story0 ++ [.paragraph "<b>Score Overview</b>" "Head"] ++
        (match create_score_chart qa_data with
         | some d => [.chart d, .spacer 1 15]
         | none => [])
  let story2 :=
    if qa_data.isEmpty then story1
    else
      story1 ++
        [.paragraph "<b>Detailed Question Analysis</b>" "Head", .spacer 1 5,
         .tableOpt (create_qa_table qa_data), .spacer 1 20]
  if remaining_text = "" then story2
  else story2 ++ [.paragraph (formatRemaining remaining_text) "Body"]

/-- The outcome of the `/generate-report` endpoint, as far as the claims
are concerned: a 400 validation error, a 500 internal error, or the
produced document (filename plus assembled story). -/
inductive ApiResult where
  | badRequest (error : String)
  | internalError (error : String)
  | document (filename : String) (story : List Flowable)
deriving DecidableEq, Repr

def requiredFields : List String :=
  ["candidate_name", "candidate_position", "date", "interview_id",
   "ai_overview"]

/-- Python `field in req_data` on the JSON-object payload, modelled as an
association list. -/
def hasField (req_data : List (String × String)) (f : String) : Bool :=
  req_data.any (fun p => p.1 == f)

/-- `generate_report_api` (src/app.py lines 241–326).  `payload` is
`none` when the request body is absent or unparseable; the falsiness test
`if not req_data` also fires on the empty JSON object.  The required
fields are checked in order and the first absent one is reported.  Any
exception inside the handler (here: the `int()` conversion in parsing,
or the impossible post-validation key lookup) becomes a 500 error. -/
def generate_report_api (payload : Option (List (String × String))) :
    ApiResult :=
  match payload with
  | none => .badRequest "No JSON data provided"
  | some req_data =>
    if req_data.isEmpty then .badRequest "No JSON data provided"
    else
      match requiredFields.find? (fun f => !hasField req_data f) with
      | some f => .badRequest ("Missing field: " ++ f)
      | none =>
        match req_data.lookup "ai_overview", req_data.lookup "interview_id" with
        | some ai_text, some interview_id =>
          match parse_full_report ai_text with
          | .ok (qa_data, remaining_text) =>
            .document ("Report_" ++ interview_id ++ ".pdf")
              (buildStory qa_data remaining_text)
          | .error e => .internalError e
        | _, _ => .internalError "KeyError"

/-! ### Spec-side definitions (used to state the claims, never by the
embedding of the code above) -/

/-- The spec's question transformation as the claim words it: one leading
"Your " token stripped, then trimmed. -/
def claimCleanQ (q : List Char) : List Char :=
  pyStrip (if startsWithL yourLit q then q.drop yourLit.length else q)

/-- The claim's literal remainder markers: the exact strings
"2. Overall Evaluation:" or "Overall Evaluation:", case-insensitively. -/
def claimMarkerAt (s : List Char) : Bool :=
  startsWithCI "2. Overall Evaluation:".data s || startsWithCI ovLit s

/-- The remainder as the claim words it: the trimmed substring from the
first (leftmost, i.e. longest-suffix) occurrence of a literal marker. -/
def claimRemainder (text : String) : String :=
  match text.data.tails.find? claimMarkerAt with
  | some u => String.mk (pyStrip u)
  | none => ""

/-- The amended marker: "2." followed by optional whitespace and
"Overall Evaluation:", or plain "Overall Evaluation:" (case-insensitive). -/
def markerAtSpec (s : List Char) : Bool :=
  startsWithCI ovLit s ||
  (startsWithL "2.".data s &&
    wsThen (fun u => startsWithCI ovLit u) (s.drop 2))

/-- The amended remainder specification: trimmed longest suffix (earliest
occurrence) at which the amended marker matches, else empty. -/
def specRemainder (text : String) : String :=
  match text.data.tails.find? markerAtSpec with
  | some u => String.mk (pyStrip u)
  | none => ""

/-- The spec's canonical thresholds: score ≤ 3 low, 3 < score ≤ 6 mid,
score > 6 high. -/
def specBand (s : Int) : Band :=
  if s ≤ 3 then .low else if s ≤ 6 then .mid else .high

/-- One well-formed "Question/Score/Comment" block of a narrative, as the
universally quantified claims speak of it: the raw question text, the raw
score token and the raw comment text. -/
structure Block where
  q : List Char
  scoreTok : List Char
  c : List Char
deriving DecidableEq, Repr

/-- A single-line segment: nonempty, free of line breaks, not starting or
ending in whitespace. -/
def goodSeg (l : List Char) : Bool :=
  !l.isEmpty && l.all (fun ch => ch != '\n') &&
  !(isPySpace (l.headD 'x')) && !(isPySpace (l.getLastD 'x'))

/-- A well-formed score token: a nonempty digit string. -/
def goodTok (l : List Char) : Bool := !l.isEmpty && l.all Char.isDigit

def WFBlock (b : Block) : Prop :=
  goodSeg b.q = true ∧ goodTok b.scoreTok = true ∧ goodSeg b.c = true

instance (b : Block) : Decidable (WFBlock b) := by
  unfold WFBlock
  infer_instance

/-- Render one block in the canonical labelled shape. -/
def renderBlock (b : Block) : List Char :=
  "Question: ".data ++ b.q ++ "\nScore: ".data ++ b.scoreTok ++
  "\nComment: ".data ++ b.c

/-- Render a narrative consisting of the given blocks, one per line group. -/
def renderBlocks : List Block → List Char
  | [] => []
  | [b] => renderBlock b
  | b :: bs => renderBlock b ++ '\n' :: renderBlocks bs

/-- The record the parser produces for a block (its raw captures are
exactly the block's fields). -/
def blockRecord (b : Block) : Record :=
  ⟨String.mk (pyStrip (pyReplace yourLit [] b.q)), digitsToNat b.scoreTok,
   String.mk (replaceNl (pyStrip b.c))⟩

/-- The cleaning transformation applied to one raw match, as a standalone
function of the captures. -/
def cleanTriple (t : List Char × List Char × List Char) : Record :=
  ⟨String.mk (pyStrip (pyReplace yourLit [] t.1)), (pyInt? t.2.1).getD 0,
   String.mk (replaceNl (pyStrip t.2.2))⟩

/-! ## Lemmas and claim theorems -/

/-- The C1 scenario input. -/
def C1text : String :=
  "Question: Your communication skills\nScore: 8\nComment: Excellent clarity\n\nOverall Evaluation: Strong candidate.\nStrengths: good\nWeaknesses: none\nFinal Recommendation: Hire"

/-- The C1 scenario's remainder (as both the claim and the code produce). -/
def C1rem : String :=
  "Overall Evaluation: Strong candidate.\nStrengths: good\nWeaknesses: none\nFinal Recommendation: Hire"

/-- The comment the code actually produces on the C1 input: the lazy
comment capture stops only at `\n\s*Question:`, `\n\s*[0-9]+\.` or end of
input, none of which occurs after "Excellent clarity", so the capture runs
to the end of the text and its newlines are then replaced by spaces. -/
def C1comment : String :=
  "Excellent clarity  Overall Evaluation: Strong candidate. Strengths: good Weaknesses: none Final Recommendation: Hire"

set_option maxRecDepth 100000 in
theorem parse_C1_eval :
    parse_full_report C1text =
      .ok ([⟨"communication skills", 8, C1comment⟩], C1rem) := by rfl

set_option maxRecDepth 100000 in
/-- C1: the claimed scenario output is wrong about the comment field: the
code's record is not `("communication skills", 8, "Excellent clarity")`. -/
theorem claim_C1_counterexample :
    parse_full_report C1text ≠
      .ok ([⟨"communication skills", 8, "Excellent clarity"⟩], C1rem) := by
  rw [parse_C1_eval]
  intro h
  simp only [Except.ok.injEq, Prod.mk.injEq, List.cons.injEq,
    Record.mk.injEq] at h
  exact absurd h (by decide)

/-- C1 (amended): on the scenario input, `parse_full_report` returns one
record `("communication skills", 8, c)` where `c` is "Excellent clarity"
followed by the whole evaluation tail with newlines collapsed to spaces,
and the remainder claimed: the full text from "Overall Evaluation:" on. -/
theorem claim_C1_amended :
    parse_full_report C1text =
      .ok ([⟨"communication skills", 8, C1comment⟩], C1rem) :=
  parse_C1_eval

/-- The C3 counterexample input: a question with an inner "Your ". -/
def C3text : String := "Question: Your views on Your team\nScore: 5\nComment: ok"

set_option maxRecDepth 100000 in
/-- C3: the code removes every occurrence of "Your " from the question
(`q.replace("Your ", "")`), not just one leading token: on a question whose
matched text is "Your views on Your team" the claim's transformation gives
"views on Your team" but the record holds "views on team". -/
theorem claim_C3_counterexample :
    findAll C3text.data =
      [("Your views on Your team".data, "5".data, "ok".data)] ∧
    String.mk (claimCleanQ "Your views on Your team".data) =
      "views on Your team" ∧
    parse_full_report C3text = .ok ([⟨"views on team", 5, "ok"⟩], "") ∧
    ("views on team" : String) ≠ "views on Your team" :=
  ⟨rfl, rfl, rfl, by decide⟩

theorem convertAll_ok_map (ms : List (List Char × List Char × List Char))
    (l : List Record) (h : convertAll ms = .ok l) : l = ms.map cleanTriple := by
  induction ms generalizing l with
  | nil =>
    simp only [convertAll, Except.ok.injEq] at h
    simp [← h]
  | cons t rest ih =>
    obtain ⟨q, s, c⟩ := t
    rw [convertAll] at h
    cases hn : pyInt? s with
    | none => rw [hn] at h; exact absurd h (by simp)
    | some n =>
      rw [hn] at h
      cases hr : convertAll rest with
      | error e => rw [hr] at h; exact absurd h (by simp)
      | ok l' =>
        rw [hr] at h
        simp only [Except.ok.injEq] at h
        subst h
        simp [cleanTriple, ih l' hr, hn]

/-- C3 (amended): every record produced by `parse_full_report` is the
corresponding raw match, in order, with every occurrence of "Your "
removed from the question capture and the result trimmed, and with the
comment capture trimmed and its newlines replaced by single spaces. -/
theorem claim_C3_amended (text : String) (l : List Record) (rem : String)
    (h : parse_full_report text = .ok (l, rem)) :
    l = (findAll text.data).map cleanTriple := by
  unfold parse_full_report at h
  cases hc : convertAll (findAll text.data) with
  | error e => rw [hc] at h; exact absurd h (by simp)
  | ok recs =>
    rw [hc] at h
    simp only [Except.ok.injEq, Prod.mk.injEq] at h
    rw [← h.1]
    exact convertAll_ok_map _ _ hc

set_option maxRecDepth 100000 in
theorem claim_C3_amended_witness :
    ([⟨"views on team", 5, "ok"⟩] : List Record) =
      (findAll C3text.data).map cleanTriple :=
  claim_C3_amended C3text _ _ (by rfl)

/-- C4: the code's marker regex is `2\.\s*Overall Evaluation:` — "2." with
*any* (possibly empty) run of whitespace before "Overall Evaluation:" —
so on "2.Overall Evaluation: Good" the remainder starts at "2.", while
the claim's literal markers would select the substring starting at
"Overall Evaluation:". -/
theorem claim_C4_counterexample :
    extractRemaining "2.Overall Evaluation: Good" =
      "2.Overall Evaluation: Good" ∧
    claimRemainder "2.Overall Evaluation: Good" =
      "Overall Evaluation: Good" ∧
    parse_full_report "2.Overall Evaluation: Good" =
      .ok ([], "2.Overall Evaluation: Good") ∧
    ("2.Overall Evaluation: Good" : String) ≠ "Overall Evaluation: Good" :=
  ⟨rfl, rfl, rfl, by decide⟩

theorem charBeq_comm (a b : Char) : (a == b) = (b == a) := by
  by_cases h : a = b
  · subst h; rfl
  · have h2 : ¬b = a := fun e => h e.symm
    simp [h, h2]

theorem markerAt_eq_spec (s : List Char) : markerAt s = markerAtSpec s := by
  unfold markerAt markerAtSpec
  rcases s with _ | ⟨a, _ | ⟨b, t⟩⟩ <;>
    simp [startsWithL, Bool.or_comm, Bool.and_assoc, charBeq_comm]

theorem searchMarker_eq_tails_find (s : List Char) :
    searchMarker s = s.tails.find? markerAtSpec := by
  induction s with
  | nil => rfl
  | cons c t ih =>
    rw [searchMarker, List.tails_cons, List.find?]
    rw [markerAt_eq_spec]
    cases h : markerAtSpec (c :: t) <;> simp [h, ih]

/-- C4 (amended): the remainder equals the trimmed text from the first
(leftmost) position at which "2." followed by an arbitrary — possibly
empty — whitespace run and "Overall Evaluation:" matches, or at which
"Overall Evaluation:" matches, case-insensitively; it is empty when no
such position exists, and it is a function of the input text alone
(independent of the extracted records). -/
theorem claim_C4_amended (text : String) :
    extractRemaining text = specRemainder text := by
  unfold extractRemaining specRemainder
  rw [searchMarker_eq_tails_find]

/-- C5: both the chart's inline thresholds and the table's inline
thresholds realize the canonical banding: score ≤ 3 low (red), 3 < score
≤ 6 mid (amber/orange), score > 6 high (green); in particular 3 is low,
4 and 6 are mid, 7 is high. -/
theorem claim_C5_color_bands :
    (∀ s : Int, bandOfHex (chartBarColor s) = some (specBand s) ∧
      bandOfName (tableScoreColor s) = some (specBand s)) ∧
    specBand 3 = .low ∧ specBand 4 = .mid ∧ specBand 6 = .mid ∧
    specBand 7 = .high := by
  refine ⟨fun s => ⟨?_, ?_⟩, by decide, by decide, by decide, by decide⟩
  · unfold chartBarColor specBand bandOfHex
    split_ifs <;> simp_all
  · unfold tableScoreColor specBand bandOfName
    split_ifs <;> first | rfl | omega | simp_all

/-- C6: at every integer score the chart's independently-coded threshold
chain and the table's threshold chain choose the same color band — the two
duplicated implementations never diverge, the boundaries 3 and 6
included. -/
theorem claim_C6_policies_agree :
    (∀ s : Int, bandOfHex (chartBarColor s) = bandOfName (tableScoreColor s)) ∧
    bandOfHex (chartBarColor 3) = bandOfName (tableScoreColor 3) ∧
    bandOfHex (chartBarColor 6) = bandOfName (tableScoreColor 6) := by
  refine ⟨fun s => ?_, by decide, by decide⟩
  unfold chartBarColor tableScoreColor bandOfHex bandOfName
  split_ifs <;> first | rfl | omega | simp_all

/-- C7: on an empty record list both builders return `None`; the story is
then just the template switch plus (for a nonempty remainder) the formatted
remainder paragraph — it contains no chart, no table and no "Score
Overview" / "Detailed Question Analysis" heading. -/
theorem claim_C7_empty_records : ∀ rem : String,
    create_score_chart [] = none ∧ create_qa_table [] = none ∧
    buildStory [] rem =
      [Flowable.nextPageTemplate "Later"] ++
        (if rem = "" then []
         else [Flowable.paragraph (formatRemaining rem) "Body"]) ∧
    (buildStory [] rem).all (fun f =>
      match f with
      | Flowable.chart _ => false
      | Flowable.tableOpt _ => false
      | Flowable.paragraph t st =>
          !(st == "Head" && (t == "<b>Score Overview</b>" ||
            t == "<b>Detailed Question Analysis</b>"))
      | _ => true) = true := by
  intro rem
  refine ⟨rfl, rfl, ?_, ?_⟩ <;> by_cases h : rem = "" <;>
    simp [buildStory, h]

/-- C9: on the empty JSON object every required field is absent, yet the
handler's falsiness check fires first and the response is "No JSON data
provided" — not a "Missing field: <name>" error (its message does not even
begin with "Missing field:"). -/
theorem claim_C9_counterexample :
    generate_report_api (some ([] : List (String × String))) =
      .badRequest "No JSON data provided" ∧
    requiredFields.all (fun f => !hasField [] f) = true ∧
    startsWithL "Missing field:".data "No JSON data provided".data = false :=
  ⟨rfl, by decide, by decide⟩

/-- C10: a present, parseable but empty JSON object payload is falsy, so
the handler answers "No JSON data provided" even though every required
field is absent from it. -/
theorem claim_C10_empty_object :
    generate_report_api (some ([] : List (String × String))) =
      .badRequest "No JSON data provided" ∧
    generate_report_api none = .badRequest "No JSON data provided" ∧
    requiredFields.all (fun f => !hasField ([] : List (String × String)) f) =
      true :=
  ⟨rfl, rfl, by decide⟩

/-- The C8 input whose score token is not an integer. -/
def C8text : String := "Question: X\nScore: abc\nComment: Y"

/-! ### Combinator lemmas: every result of the matcher comes from the
continuation, applied to a suffix of the input -/

theorem greedyWsFrom_pred {α : Type} (P : α → Prop) (k : List Char → Option α)
    (s : List Char) (hk : ∀ i r, k (s.drop i) = some r → P r) :
    ∀ n r, greedyWsFrom k s n = some r → P r := by
  intro n
  induction n with
  | zero => intro r h; exact hk 0 r (by simpa using h)
  | succ n ih =>
    intro r h
    rw [greedyWsFrom] at h
    cases hkk : k (s.drop (n + 1)) with
    | some r2 =>
      rw [hkk] at h
      obtain rfl := Option.some.inj h
      exact hk (n + 1) r2 hkk
    | none => rw [hkk] at h; exact ih r h

theorem greedyDigitsFrom_pred {α : Type} (P : α → Prop)
    (k : List Char → List Char → Option α) (s : List Char) (n : Nat)
    (hk : ∀ i, 1 ≤ i → i ≤ n → ∀ r, k (s.take i) (s.drop i) = some r → P r) :
    ∀ r, greedyDigitsFrom k s n = some r → P r := by
  induction n with
  | zero => intro r h; simp [greedyDigitsFrom] at h
  | succ n ih =>
    intro r h
    rw [greedyDigitsFrom] at h
    cases hkk : k (s.take (n + 1)) (s.drop (n + 1)) with
    | some r2 =>
      rw [hkk] at h
      obtain rfl := Option.some.inj h
      exact hk (n + 1) (by omega) (by omega) r2 hkk
    | none =>
      rw [hkk] at h
      exact ih (fun i h1 h2 => hk i h1 (by omega)) r h

theorem lazyPlusGo_pred {α : Type} (P : α → Prop)
    (k : List Char → List Char → Option α)
    (hk : ∀ cap t r, k cap t = some r → P r) :
    ∀ s cap r, lazyPlusGo k cap s = some r → P r := by
  intro s
  induction s with
  | nil => intro cap r h; simp [lazyPlusGo] at h
  | cons c t ih =>
    intro cap r h
    rw [lazyPlusGo] at h
    cases hkk : k (cap ++ [c]) t with
    | some r2 =>
      rw [hkk] at h
      obtain rfl := Option.some.inj h
      exact hk _ _ _ hkk
    | none => rw [hkk] at h; exact ih (cap ++ [c]) r h

theorem greedyWsFrom_rest_le (k : List Char → Option QAMatch) (s : List Char)
    (hk : ∀ t r, k t = some r → r.rest.length ≤ t.length) :
    ∀ n r, greedyWsFrom k s n = some r → r.rest.length ≤ s.length :=
  greedyWsFrom_pred (fun r => r.rest.length ≤ s.length) k s
    (fun i r h => le_trans (hk _ r h) (by simp [List.length_drop]))

theorem greedyDigitsFrom_rest_le (k : List Char → List Char → Option QAMatch)
    (s : List Char) (n : Nat)
    (hk : ∀ c t r, k c t = some r → r.rest.length ≤ t.length) :
    ∀ r, greedyDigitsFrom k s n = some r → r.rest.length ≤ s.length :=
  greedyDigitsFrom_pred (fun r => r.rest.length ≤ s.length) k s n
    (fun i _ _ r h => le_trans (hk _ _ r h) (by simp [List.length_drop]))

theorem lazyPlusGo_rest_le (k : List Char → List Char → Option QAMatch)
    (hk : ∀ cap t r, k cap t = some r → r.rest.length ≤ t.length) :
    ∀ s cap r, lazyPlusGo k cap s = some r → r.rest.length ≤ s.length := by
  intro s
  induction s with
  | nil => intro cap r h; simp [lazyPlusGo] at h
  | cons c t ih =>
    intro cap r h
    rw [lazyPlusGo] at h
    cases hkk : k (cap ++ [c]) t with
    | some r2 =>
      rw [hkk] at h
      obtain rfl := Option.some.inj h
      exact le_trans (hk _ _ _ hkk) (by simp)
    | none =>
      rw [hkk] at h
      exact le_trans (ih (cap ++ [c]) r h) (by simp)

theorem stripLitCI_length (lit : List Char) :
    ∀ s t, stripLitCI lit s = some t → t.length + lit.length = s.length := by
  induction lit with
  | nil =>
    intro s t h
    simp only [stripLitCI, Option.some.injEq] at h
    subst h; simp
  | cons a la ih =>
    intro s t h
    cases s with
    | nil => simp [stripLitCI] at h
    | cons b lb =>
      rw [stripLitCI] at h
      split at h
      · have := ih lb t h
        simp only [List.length_cons]
        omega
      · cases h

theorem stage5_rest_le (q sc s : List Char) :
    ∀ r, stage5 q sc s = some r → r.rest.length ≤ s.length := by
  intro r h
  refine greedyWsFrom_rest_le _ s (fun t r2 h2 => ?_) (wsRun s) r h
  refine lazyPlusGo_rest_le _ (fun cap t2 r3 h3 => ?_) t [] r2 h2
  split at h3
  · obtain rfl := Option.some.inj h3; exact le_refl _
  · cases h3

theorem stage4_rest_le (q sc s : List Char) :
    ∀ r, stage4 q sc s = some r → r.rest.length ≤ s.length := by
  intro r h
  refine greedyWsFrom_rest_le _ s (fun t r2 h2 => ?_) (wsRun s) r h
  match t with
  | [] => cases h2
  | '\n' :: s2 =>
    have : r2.rest.length ≤ s2.length := by
      refine greedyWsFrom_rest_le _ s2 (fun t3 r3 h3 => ?_) (wsRun s2) r2 h2
      cases hs : stripLitCI clit t3 with
      | some s4 =>
        rw [hs] at h3
        have h4 := stage5_rest_le q sc s4 r3 h3
        have h5 := stripLitCI_length clit t3 s4 hs
        omega
      | none => rw [hs] at h3; cases h3
    simpa using Nat.le_succ_of_le this
  | c :: s2 =>
    by_cases hc : c = '\n'
    · subst hc
      have : r2.rest.length ≤ s2.length := by
        refine greedyWsFrom_rest_le _ s2 (fun t3 r3 h3 => ?_) (wsRun s2) r2 h2
        cases hs : stripLitCI clit t3 with
        | some s4 =>
          rw [hs] at h3
          have h4 := stage5_rest_le q sc s4 r3 h3
          have h5 := stripLitCI_length clit t3 s4 hs
          omega
        | none => rw [hs] at h3; cases h3
      simpa using Nat.le_succ_of_le this
    · rw [show (match c :: s2 with
        | '\n' :: s2 => greedyWs (fun s3 =>
            match stripLitCI clit s3 with
            | some s4 => stage5 q sc s4
            | none => none) s2
        | _ => none) = none from by
          cases c; simp_all] at h2
      cases h2

theorem stage3_rest_le (q s : List Char) :
    ∀ r, stage3 q s = some r → r.rest.length ≤ s.length := by
  intro r h
  refine greedyWsFrom_rest_le _ s (fun t r2 h2 => ?_) (wsRun s) r h
  exact greedyDigitsFrom_rest_le _ t (digitRun t)
    (fun c t2 r3 h3 => stage4_rest_le q c t2 r3 h3) r2 h2

theorem stage2_rest_le (q s : List Char) :
    ∀ r, stage2 q s = some r → r.rest.length ≤ s.length := by
  intro r h
  refine greedyWsFrom_rest_le _ s (fun t r2 h2 => ?_) (wsRun s) r h
  match t with
  | [] => cases h2
  | '\n' :: s2 =>
    have : r2.rest.length ≤ s2.length := by
      refine greedyWsFrom_rest_le _ s2 (fun t3 r3 h3 => ?_) (wsRun s2) r2 h2
      cases hs : stripLitCI slit t3 with
      | some s4 =>
        rw [hs] at h3
        have h4 := stage3_rest_le q s4 r3 h3
        have h5 := stripLitCI_length slit t3 s4 hs
        omega
      | none => rw [hs] at h3; cases h3
    simpa using Nat.le_succ_of_le this
  | c :: s2 =>
    by_cases hc : c = '\n'
    · subst hc
      have : r2.rest.length ≤ s2.length := by
        refine greedyWsFrom_rest_le _ s2 (fun t3 r3 h3 => ?_) (wsRun s2) r2 h2
        cases hs : stripLitCI slit t3 with
        | some s4 =>
          rw [hs] at h3
          have h4 := stage3_rest_le q s4 r3 h3
          have h5 := stripLitCI_length slit t3 s4 hs
          omega
        | none => rw [hs] at h3; cases h3
      simpa using Nat.le_succ_of_le this
    · rw [show (match c :: s2 with
        | '\n' :: s2 => greedyWs (fun s3 =>
            match stripLitCI slit s3 with
            | some s4 => stage3 q s4
            | none => none) s2
        | _ => none) = none from by
          cases c; simp_all] at h2
      cases h2

theorem stage1_rest_le (s : List Char) :
    ∀ r, stage1 s = some r → r.rest.length ≤ s.length := by
  intro r h
  refine greedyWsFrom_rest_le _ s (fun t r2 h2 => ?_) (wsRun s) r h
  exact lazyPlusGo_rest_le _ (fun cap t2 r3 h3 => stage2_rest_le cap t2 r3 h3)
    t [] r2 h2

theorem matchBlock_rest_lt (s : List Char) (m : QAMatch)
    (h : matchBlock s = some m) : m.rest.length < s.length := by
  unfold matchBlock at h
  cases hq : stripLitCI qlit s with
  | none => rw [hq] at h; cases h
  | some s1 =>
    rw [hq] at h
    have h1 : m.rest.length ≤ s1.length := stage1_rest_le s1 m h
    have h2 := stripLitCI_length qlit s s1 hq
    have h3 : qlit.length = 9 := rfl
    omega

/-! ### The scan's fuel never runs out -/

theorem findAllF_succ (f : Nat) (s : List Char) :
    findAllF (f + 1) s =
      match matchBlock s with
      | some m => (m.q, m.score, m.comment) :: findAllF f m.rest
      | none =>
        match s with
        | [] => []
        | _ :: t => findAllF f t := rfl

theorem findAllF_congr : ∀ (f1 f2 : Nat) (s : List Char),
    s.length < f1 → s.length < f2 → findAllF f1 s = findAllF f2 s := by
  intro f1
  induction f1 with
  | zero => intro f2 s h1 h2; omega
  | succ f1 ih =>
    intro f2 s h1 h2
    cases f2 with
    | zero => omega
    | succ f2 =>
      rw [findAllF_succ, findAllF_succ]
      cases hm : matchBlock s with
      | some m =>
        have hlt := matchBlock_rest_lt s m hm
        simp only
        rw [ih f2 m.rest (by omega) (by omega)]
      | none =>
        cases s with
        | nil => rfl
        | cons c t =>
          simp only [List.length_cons] at h1 h2
          simp only
          rw [ih f2 t (by omega) (by omega)]

/-- The honest unfolding equation of the `findall` scan. -/
theorem findAll_eq (s : List Char) :
    findAll s =
      match matchBlock s with
      | some m => (m.q, m.score, m.comment) :: findAll m.rest
      | none =>
        match s with
        | [] => []
        | _ :: t => findAll t := by
  unfold findAll
  rw [findAllF_succ]
  cases hm : matchBlock s with
  | some m =>
    simp only
    exact congrArg _ (findAllF_congr s.length (m.rest.length + 1) m.rest
      (matchBlock_rest_lt s m hm) (by omega))
  | none =>
    cases s with
    | nil => rfl
    | cons c t => rfl

/-! ### Every captured score token is a nonempty digit run -/

theorem stage5_score (q sc s : List Char) :
    ∀ r, stage5 q sc s = some r → r.score = sc := by
  intro r h
  refine greedyWsFrom_pred (fun r => r.score = sc) _ s
    (fun i r2 h2 => ?_) (wsRun s) r h
  refine lazyPlusGo_pred (fun r => r.score = sc) _
    (fun cap t2 r3 h3 => ?_) _ [] r2 h2
  split at h3
  · obtain rfl := Option.some.inj h3; rfl
  · cases h3

theorem stage4_score (q sc s : List Char) :
    ∀ r, stage4 q sc s = some r → r.score = sc := by
  intro r h
  refine greedyWsFrom_pred (fun r => r.score = sc) _ s
    (fun i r2 h2 => ?_) (wsRun s) r h
  revert h2
  generalize s.drop i = t
  intro h2
  match t with
  | [] => cases h2
  | '\n' :: s2 =>
    refine greedyWsFrom_pred (fun r => r.score = sc) _ s2
      (fun j r3 h3 => ?_) (wsRun s2) r2 h2
    cases hs : stripLitCI clit (s2.drop j) with
    | some s4 => rw [hs] at h3; exact stage5_score q sc s4 r3 h3
    | none => rw [hs] at h3; cases h3
  | c :: s2 =>
    by_cases hc : c = '\n'
    · subst hc
      refine greedyWsFrom_pred (fun r => r.score = sc) _ s2
        (fun j r3 h3 => ?_) (wsRun s2) r2 h2
      cases hs : stripLitCI clit (s2.drop j) with
      | some s4 => rw [hs] at h3; exact stage5_score q sc s4 r3 h3
      | none => rw [hs] at h3; cases h3
    · rw [show (match c :: s2 with
        | '\n' :: s2 => greedyWs (fun s3 =>
            match stripLitCI clit s3 with
            | some s4 => stage5 q sc s4
            | none => none) s2
        | _ => none) = none from by
          cases c; simp_all] at h2
      cases h2

theorem take_digitRun_all (s : List Char) :
    ∀ i, i ≤ digitRun s → (s.take i).all Char.isDigit = true := by
  induction s with
  | nil => intro i _; simp
  | cons c t ih =>
    intro i hi
    cases i with
    | zero => simp
    | succ j =>
      rw [digitRun] at hi
      by_cases hc : c.isDigit
      · rw [if_pos hc] at hi
        simp only [List.take_succ_cons, List.all_cons, hc, Bool.true_and]
        exact ih j (by omega)
      · rw [if_neg hc] at hi; omega

theorem digitRun_le_length (s : List Char) : digitRun s ≤ s.length := by
  induction s with
  | nil => simp [digitRun]
  | cons c t ih =>
    rw [digitRun]
    split
    · simp only [List.length_cons]; omega
    · simp

theorem stage3_score (q s : List Char) :
    ∀ r, stage3 q s = some r →
      r.score ≠ [] ∧ r.score.all Char.isDigit = true := by
  intro r h
  refine greedyWsFrom_pred
    (fun r => r.score ≠ [] ∧ r.score.all Char.isDigit = true) _ s
    (fun i r2 h2 => ?_) (wsRun s) r h
  refine greedyDigitsFrom_pred
    (fun r => r.score ≠ [] ∧ r.score.all Char.isDigit = true) _
    (s.drop i) (digitRun (s.drop i)) (fun j hj1 hj2 r3 h3 => ?_) r2 h2
  have hsc := stage4_score q ((s.drop i).take j) _ r3 h3
  show r3.score ≠ [] ∧ r3.score.all Char.isDigit = true
  rw [hsc]
  constructor
  · have hlen : ((s.drop i).take j).length = j ⊓ (s.drop i).length :=
      List.length_take j (s.drop i)
    have : j ≤ (s.drop i).length :=
      le_trans hj2 (digitRun_le_length (s.drop i))
    intro hnil
    rw [hnil] at hlen
    simp only [List.length_nil] at hlen
    omega
  · exact take_digitRun_all (s.drop i) j hj2

theorem stage2_score (q s : List Char) :
    ∀ r, stage2 q s = some r →
      r.score ≠ [] ∧ r.score.all Char.isDigit = true := by
  intro r h
  refine greedyWsFrom_pred
    (fun r => r.score ≠ [] ∧ r.score.all Char.isDigit = true) _ s
    (fun i r2 h2 => ?_) (wsRun s) r h
  revert h2
  generalize s.drop i = t
  intro h2
  match t with
  | [] => cases h2
  | '\n' :: s2 =>
    refine greedyWsFrom_pred
      (fun r => r.score ≠ [] ∧ r.score.all Char.isDigit = true) _ s2
      (fun j r3 h3 => ?_) (wsRun s2) r2 h2
    cases hs : stripLitCI slit (s2.drop j) with
    | some s4 => rw [hs] at h3; exact stage3_score q s4 r3 h3
    | none => rw [hs] at h3; cases h3
  | c :: s2 =>
    by_cases hc : c = '\n'
    · subst hc
      refine greedyWsFrom_pred
        (fun r => r.score ≠ [] ∧ r.score.all Char.isDigit = true) _ s2
        (fun j r3 h3 => ?_) (wsRun s2) r2 h2
      cases hs : stripLitCI slit (s2.drop j) with
      | some s4 => rw [hs] at h3; exact stage3_score q s4 r3 h3
      | none => rw [hs] at h3; cases h3
    · rw [show (match c :: s2 with
        | '\n' :: s2 => greedyWs (fun s3 =>
            match stripLitCI slit s3 with
            | some s4 => stage3 q s4
            | none => none) s2
        | _ => none) = none from by
          cases c; simp_all] at h2
      cases h2

theorem stage1_score (s : List Char) :
    ∀ r, stage1 s = some r →
      r.score ≠ [] ∧ r.score.all Char.isDigit = true := by
  intro r h
  refine greedyWsFrom_pred
    (fun r => r.score ≠ [] ∧ r.score.all Char.isDigit = true) _ s
    (fun i r2 h2 => ?_) (wsRun s) r h
  exact lazyPlusGo_pred
    (fun r => r.score ≠ [] ∧ r.score.all Char.isDigit = true) _
    (fun cap t2 r3 h3 => stage2_score cap t2 r3 h3) _ [] r2 h2

theorem matchBlock_score (s : List Char) (m : QAMatch)
    (h : matchBlock s = some m) :
    m.score ≠ [] ∧ m.score.all Char.isDigit = true := by
  unfold matchBlock at h
  cases hq : stripLitCI qlit s with
  | none => rw [hq] at h; cases h
  | some s1 => rw [hq] at h; exact stage1_score s1 m h

theorem findAll_scores_aux : ∀ (n : Nat) (s : List Char), s.length ≤ n →
    ∀ t ∈ findAll s, t.2.1 ≠ [] ∧ t.2.1.all Char.isDigit = true := by
  intro n
  induction n with
  | zero =>
    intro s hs t ht
    have : s = [] := by
      cases s with
      | nil => rfl
      | cons c u => simp at hs
    subst this
    rw [findAll_eq] at ht
    have hm : matchBlock [] = none := rfl
    rw [hm] at ht
    simp at ht
  | succ n ih =>
    intro s hs t ht
    rw [findAll_eq] at ht
    cases hm : matchBlock s with
    | some m =>
      rw [hm] at ht
      rcases List.mem_cons.mp ht with heq | hmem
      · subst heq
        exact matchBlock_score s m hm
      · have hlt := matchBlock_rest_lt s m hm
        exact ih m.rest (by omega) t hmem
    | none =>
      rw [hm] at ht
      cases s with
      | nil => simp at ht
      | cons c u =>
        simp only [List.length_cons] at hs
        exact ih u (by omega) t ht

theorem findAll_scores (s : List Char) :
    ∀ t ∈ findAll s, t.2.1 ≠ [] ∧ t.2.1.all Char.isDigit = true :=
  findAll_scores_aux s.length s (le_refl _)

theorem convertAll_ok_of_digits :
    ∀ ms : List (List Char × List Char × List Char),
    (∀ t ∈ ms, t.2.1 ≠ [] ∧ t.2.1.all Char.isDigit = true) →
    ∃ l, convertAll ms = .ok l := by
  intro ms
  induction ms with
  | nil => intro _; exact ⟨[], rfl⟩
  | cons t rest ih =>
    intro h
    obtain ⟨q, sv, c⟩ := t
    have hs := h _ (List.mem_cons_self _ _)
    have hpi : pyInt? sv = some (digitsToNat sv) := by
      unfold pyInt?
      have h1 : sv.isEmpty = false := by
        cases sv with
        | nil => exact absurd rfl hs.1
        | cons a u => rfl
      rw [if_pos (by simp [h1, hs.2])]
    obtain ⟨l, hl⟩ := ih (fun t2 ht2 => h t2 (List.mem_cons_of_mem _ ht2))
    refine ⟨⟨String.mk (pyStrip (pyReplace yourLit [] q)), digitsToNat sv,
      String.mk (replaceNl (pyStrip c))⟩ :: l, ?_⟩
    rw [convertAll, hpi, hl]

/-- C8 (amended): the score group `(\d+)` can only capture a nonempty digit
run, whose `int()` conversion always succeeds, so `parse_full_report` never
raises a ParseError: it succeeds on every input.  An input whose score
token is not an integer simply yields no record for that block (see the
counterexample theorem: the request still produces a document). -/
theorem claim_C8_amended (text : String) :
    ∃ v, parse_full_report text = .ok v := by
  obtain ⟨l, hl⟩ :=
    convertAll_ok_of_digits (findAll text.data) (findAll_scores text.data)
  exact ⟨(l, extractRemaining text), by unfold parse_full_report; rw [hl]⟩

set_option maxRecDepth 100000 in
theorem claim_C8_amended_witness :
    ∃ v, parse_full_report C8text = .ok v :=
  claim_C8_amended C8text

/-- C9 (amended): for every payload that is present and non-empty, if some
required field is absent then the handler answers with a "Missing field"
validation error naming an absent required field (the first one in the
check order), and no document is produced. -/
theorem claim_C9_amended (req_data : List (String × String))
    (hne : req_data ≠ []) (f : String) (hf : f ∈ requiredFields)
    (habs : hasField req_data f = false) :
    ∃ g, g ∈ requiredFields ∧ hasField req_data g = false ∧
      generate_report_api (some req_data) =
        .badRequest ("Missing field: " ++ g) := by
  have hne' : req_data.isEmpty = false := by
    cases req_data with
    | nil => exact absurd rfl hne
    | cons a u => rfl
  cases hfind : requiredFields.find? (fun x => !hasField req_data x) with
  | none =>
    exfalso
    rw [List.find?_eq_none] at hfind
    exact hfind f hf (by simp [habs])
  | some g =>
    refine ⟨g, List.mem_of_find?_eq_some hfind, ?_, ?_⟩
    · have := List.find?_some hfind
      simpa using this
    · simp only [generate_report_api, hne', Bool.false_eq_true,
        if_false, hfind]

theorem claim_C9_amended_witness :
    ∃ g, g ∈ requiredFields ∧
      hasField [("candidate_name", "Jordan")] g = false ∧
      generate_report_api (some [("candidate_name", "Jordan")]) =
        .badRequest ("Missing field: " ++ g) :=
  claim_C9_amended [("candidate_name", "Jordan")] (by simp)
    "candidate_position" (by simp [requiredFields]) (by decide)

/-! ### C2: parsing a narrative of well-formed rendered blocks -/

def sRest : List Char := "Score: ".data
def cRest : List Char := "Comment: ".data

theorem stripLitCI_refl : ∀ (lit rest : List Char),
    stripLitCI lit (lit ++ rest) = some rest := by
  intro lit
  induction lit with
  | nil => intro rest; rfl
  | cons a la ih =>
    intro rest
    rw [List.cons_append, stripLitCI, if_pos (by simp)]
    exact ih rest

theorem startsWithCI_append (lit rest : List Char) :
    startsWithCI lit (lit ++ rest) = true := by
  unfold startsWithCI
  rw [stripLitCI_refl]
  rfl

theorem wsRun_cons_ws (c : Char) (t : List Char) (h : isPySpace c = true) :
    wsRun (c :: t) = wsRun t + 1 := by
  rw [wsRun, if_pos h]

theorem wsRun_cons_nonws (c : Char) (t : List Char) (h : isPySpace c = false) :
    wsRun (c :: t) = 0 := by
  rw [wsRun, if_neg (by simp [h])]

theorem isPySpace_of_digit (ch : Char) (h : ch.isDigit = true) :
    isPySpace ch = false := by
  by_contra hx
  have hx' : isPySpace ch = true := by simpa using hx
  simp only [isPySpace, Bool.or_eq_true, beq_iff_eq] at hx'
  rcases hx' with ((((h1 | h1) | h1) | h1) | h1) | h1 <;> subst h1 <;>
    exact absurd h (by decide)

theorem goodSeg_parts (l : List Char) (h : goodSeg l = true) :
    l ≠ [] ∧ (∀ x ∈ l, x ≠ '\n') ∧ isPySpace (l.headD 'x') = false ∧
    isPySpace (l.getLastD 'x') = false := by
  simp only [goodSeg, Bool.and_eq_true, Bool.not_eq_true',
    List.all_eq_true] at h
  refine ⟨?_, ?_, h.1.2, h.2⟩
  · intro he
    rw [he] at h
    simp at h
  · intro x hx
    have := h.1.1.2 x hx
    simpa using this

theorem goodTok_parts (l : List Char) (h : goodTok l = true) :
    l ≠ [] ∧ l.all Char.isDigit = true := by
  simp only [goodTok, Bool.and_eq_true] at h
  refine ⟨?_, h.2⟩
  intro he
  rw [he] at h
  simp at h

theorem getLastD_append_right (a1 a2 : List Char) (h : a2 ≠ []) (d : Char) :
    (a1 ++ a2).getLastD d = a2.getLastD d := by
  rw [List.getLastD_eq_getLast?, List.getLastD_eq_getLast?,
    List.getLast?_append]
  cases hh : a2.getLast? with
  | none => exact absurd (List.getLast?_eq_none_iff.mp hh) h
  | some x => rfl

theorem getLastD_default_irrel (d : Char) (l : List Char) (a b : Char) :
    (d :: l).getLastD a = (d :: l).getLastD b := by
  rw [List.getLastD_eq_getLast?, List.getLastD_eq_getLast?]
  cases hh : (d :: l).getLast? with
  | none => exact absurd (List.getLast?_eq_none_iff.mp hh) (by simp)
  | some x => rfl

theorem wsRun_append_lt (l b : List Char) (hne : l ≠ [])
    (hlast : isPySpace (l.getLastD 'x') = false) :
    wsRun (l ++ b) < l.length := by
  induction l with
  | nil => exact absurd rfl hne
  | cons c l' ih =>
    cases l' with
    | nil =>
      have hcl : isPySpace c = false := by simpa [List.getLastD] using hlast
      rw [List.cons_append, wsRun_cons_nonws c _ hcl]
      simp
    | cons d l'' =>
      have hlast' : isPySpace ((d :: l'').getLastD 'x') = false := by
        rw [List.getLastD_cons] at hlast
        rw [getLastD_default_irrel d l'' 'x' c]
        exact hlast
      have hih := ih (by simp) hlast'
      by_cases hc : isPySpace c
      · rw [List.cons_append, wsRun_cons_ws c _ hc]
        simp only [List.length_cons] at hih ⊢
        omega
      · rw [List.cons_append, wsRun_cons_nonws c _ (by simpa using hc)]
        simp

theorem greedyWsFrom_none {α : Type} (k : List Char → Option α)
    (s : List Char) :
    ∀ n, (∀ i, i ≤ n → k (s.drop i) = none) → greedyWsFrom k s n = none := by
  intro n
  induction n with
  | zero =>
    intro h
    have := h 0 (le_refl 0)
    simpa using this
  | succ n ih =>
    intro h
    rw [greedyWsFrom, h (n + 1) (le_refl _)]
    exact ih (fun i hi => h i (by omega))

theorem head_drop_mem (l : List Char) (i : Nat) (h : i < l.length) :
    ∃ c t, l.drop i = c :: t ∧ c ∈ l := by
  have hne : l.drop i ≠ [] := by
    intro he
    have hl := List.length_drop i l
    rw [he] at hl
    simp only [List.length_nil] at hl
    omega
  cases hd : l.drop i with
  | nil => exact absurd hd hne
  | cons c t =>
    refine ⟨c, t, rfl, List.drop_subset i l ?_⟩
    rw [hd]
    exact List.mem_cons_self c t

/-- Greedy `\s*` followed by a literal `\n` fails on `a2 ++ b` whenever
`a2` is a nonempty newline-free segment that does not end in whitespace:
the whitespace skip cannot cross `a2`, and every reachable head is a
character of `a2`, hence not the required newline. -/
theorem nlMatch_fail {α : Type} (G : List Char → Option α) (a2 b : List Char)
    (hne : a2 ≠ []) (hnl : ∀ x ∈ a2, x ≠ '\n')
    (hlast : isPySpace (a2.getLastD 'x') = false) :
    greedyWs (fun s1 =>
      match s1 with
      | '\n' :: s2 => G s2
      | _ => none) (a2 ++ b) = none := by
  apply greedyWsFrom_none
  intro i hi
  have hw : wsRun (a2 ++ b) < a2.length := wsRun_append_lt a2 b hne hlast
  have hii : i < a2.length := by omega
  have hd : (a2 ++ b).drop i = a2.drop i ++ b :=
    List.drop_append_of_le_length (by omega)
  obtain ⟨c, t, hct, hcm⟩ := head_drop_mem a2 i hii
  rw [hd, hct, List.cons_append]
  have hcnl : c ≠ '\n' := hnl c hcm
  cases c
  simp_all

theorem lookaheadOk_cons_ne (x : Char) (u : List Char) (h : x ≠ '\n') :
    lookaheadOk (x :: u) = false := by
  rw [lookaheadOk]
  simp [h]

theorem wsThen_here (p : List Char → Bool) (s : List Char) (h : p s = true) :
    wsThen p s = true := by
  cases s with
  | nil => exact h
  | cons c t => rw [wsThen, h]; rfl

theorem lazyPlusGo_split {α : Type} (k : List Char → List Char → Option α)
    (b : List Char) (r : α) :
    ∀ (a cap : List Char), a ≠ [] →
      (∀ a1 a2, a1 ++ a2 = a → a1 ≠ [] → a2 ≠ [] →
        k (cap ++ a1) (a2 ++ b) = none) →
      k (cap ++ a) b = some r →
      lazyPlusGo k cap (a ++ b) = some r := by
  intro a
  induction a with
  | nil => intro cap h; exact absurd rfl h
  | cons c a' ih =>
    intro cap _ hfail hsucc
    rw [List.cons_append, lazyPlusGo]
    cases a' with
    | nil =>
      have hsucc' : k (cap ++ [c]) ([] ++ b) = some r := by
        simpa using hsucc
      rw [hsucc']
    | cons d a'' =>
      have h1 : k (cap ++ [c]) ((d :: a'') ++ b) = none :=
        hfail [c] (d :: a'') rfl (by simp) (by simp)
      rw [h1]
      refine ih (cap ++ [c]) (by simp) ?_ ?_
      · intro a1 a2 he h1' h2'
        have := hfail (c :: a1) a2 (by rw [← he]; rfl) (by simp) h2'
        simpa [List.append_assoc] using this
      · simpa [List.append_assoc] using hsucc

theorem greedyWs_hit {α : Type} (k : List Char → Option α) (s : List Char)
    (r : α) (h : k (s.drop (wsRun s)) = some r) : greedyWs k s = some r := by
  unfold greedyWs
  cases hn : wsRun s with
  | zero => rw [hn] at h; simpa using h
  | succ n =>
    rw [hn] at h
    rw [greedyWsFrom, h]

theorem greedyWs_zero {α : Type} (k : List Char → Option α) (s : List Char)
    (h : wsRun s = 0) : greedyWs k s = k s := by
  unfold greedyWs
  rw [h, greedyWsFrom]

theorem greedyDigits_hit {α : Type} (k : List Char → List Char → Option α)
    (s : List Char) (r : α) (hn : digitRun s ≠ 0)
    (h : k (s.take (digitRun s)) (s.drop (digitRun s)) = some r) :
    greedyDigits k s = some r := by
  unfold greedyDigits
  cases hd : digitRun s with
  | zero => exact absurd hd hn
  | succ n =>
    rw [hd] at h
    rw [greedyDigitsFrom, h]

theorem digitRun_append_nl (tok y : List Char)
    (hd : tok.all Char.isDigit = true) :
    digitRun (tok ++ '\n' :: y) = tok.length := by
  induction tok with
  | nil =>
    rw [List.nil_append, digitRun, if_neg (by decide)]
    rfl
  | cons c tok' ih =>
    simp only [List.all_cons, Bool.and_eq_true] at hd
    rw [List.cons_append, digitRun, if_pos hd.1, ih hd.2]
    rfl

/-- Greedy `\s*`, a literal `\n`, greedy `\s*`, a case-insensitive literal:
succeeds on `'\n' :: lit ++ ' ' :: rest` (the canonical rendering) and
hands `' ' :: rest` to the continuation. -/
theorem greedyWs_nl {α : Type} (G : List Char → Option α) (u : List Char)
    (hu : ∀ x t, u = x :: t → x ≠ '\n') (hwu : wsRun u = 0) (r : α)
    (hr : G u = some r) :
    greedyWs (fun s1 =>
      match s1 with
      | '\n' :: s2 => G s2
      | _ => none) ('\n' :: u) = some r := by
  unfold greedyWs
  rw [wsRun_cons_ws _ _ (by decide), hwu]
  rw [greedyWsFrom]
  have hnone : (match u with | '\n' :: s2 => G s2 | _ => none) = none := by
    cases u with
    | nil => rfl
    | cons x t =>
      have := hu x t rfl
      cases x
      simp_all
  simp only [List.drop_succ_cons, List.drop_zero, hnone]
  rw [greedyWsFrom]
  exact hr

theorem stage5_render (q sc c tail : List Char) (hc : goodSeg c = true)
    (ht : tail = [] ∨ ∃ u, tail = '\n' :: u ∧ startsWithCI qlit u = true) :
    stage5 q sc (' ' :: (c ++ tail)) = some ⟨q, sc, c, tail⟩ := by
  obtain ⟨hcne, hcnl, hchead, _⟩ := goodSeg_parts c hc
  obtain ⟨c0, c', rfl⟩ : ∃ c0 c', c = c0 :: c' := by
    cases c with
    | nil => exact absurd rfl hcne
    | cons c0 c' => exact ⟨c0, c', rfl⟩
  have hchead' : isPySpace c0 = false := by simpa using hchead
  unfold stage5
  apply greedyWs_hit
  have hws : wsRun (' ' :: (c0 :: c' ++ tail)) = 1 := by
    rw [wsRun_cons_ws _ _ (by decide), List.cons_append,
      wsRun_cons_nonws _ _ hchead']
  rw [hws, List.drop_succ_cons, List.drop_zero]
  unfold lazyPlus
  refine lazyPlusGo_split _ tail _ (c0 :: c') [] (by simp) ?_ ?_
  · intro a1 a2 he h1 h2
    obtain ⟨x, xs, rfl⟩ : ∃ x xs, a2 = x :: xs := by
      cases a2 with
      | nil => exact absurd rfl h2
      | cons x xs => exact ⟨x, xs, rfl⟩
    have hx : x ≠ '\n' := by
      refine hcnl x ?_
      rw [← he]
      exact List.mem_append_right a1 (List.mem_cons_self x xs)
    rw [List.cons_append]
    simp [lookaheadOk_cons_ne x _ hx]
  · have hla : lookaheadOk tail = true := by
      rcases ht with rfl | ⟨u, rfl, hu⟩
      · rfl
      · rw [lookaheadOk]
        simp [wsThen_here _ u hu]
    simp [hla]

theorem stage4_render (q sc c tail : List Char) (hc : goodSeg c = true)
    (ht : tail = [] ∨ ∃ u, tail = '\n' :: u ∧ startsWithCI qlit u = true) :
    stage4 q sc ('\n' :: (cRest ++ (c ++ tail))) = some ⟨q, sc, c, tail⟩ := by
  unfold stage4
  apply greedyWs_nl
  · intro x t hx
    rw [show cRest ++ (c ++ tail) = 'C' :: ("omment: ".data ++ (c ++ tail))
      from rfl] at hx
    injection hx with hx1 _
    rw [← hx1]
    decide
  · rw [show cRest ++ (c ++ tail) = 'C' :: ("omment: ".data ++ (c ++ tail))
      from rfl]
    exact wsRun_cons_nonws _ _ (by decide)
  · have e1 : cRest ++ (c ++ tail) = clit ++ (' ' :: (c ++ tail)) := by
      simp [cRest, clit, List.append_assoc]
    rw [e1]
    have e2 : wsRun (clit ++ (' ' :: (c ++ tail))) = 0 := by
      rw [show clit ++ (' ' :: (c ++ tail)) =
        'C' :: ("omment:".data ++ (' ' :: (c ++ tail))) from rfl]
      exact wsRun_cons_nonws _ _ (by decide)
    rw [greedyWs_zero _ _ e2, stripLitCI_refl]
    exact stage5_render q sc c tail hc ht

theorem stage3_render (q tok c tail : List Char) (htok : goodTok tok = true)
    (hc : goodSeg c = true)
    (ht : tail = [] ∨ ∃ u, tail = '\n' :: u ∧ startsWithCI qlit u = true) :
    stage3 q (' ' :: (tok ++ ('\n' :: (cRest ++ (c ++ tail))))) =
      some ⟨q, tok, c, tail⟩ := by
  obtain ⟨htne, htd⟩ := goodTok_parts tok htok
  obtain ⟨t0, tok', rfl⟩ : ∃ t0 tok', tok = t0 :: tok' := by
    cases tok with
    | nil => exact absurd rfl htne
    | cons t0 tok' => exact ⟨t0, tok', rfl⟩
  have ht0 : t0.isDigit = true := by
    simp only [List.all_cons, Bool.and_eq_true] at htd
    exact htd.1
  unfold stage3
  apply greedyWs_hit
  have hws : wsRun (' ' :: (t0 :: tok' ++ ('\n' :: (cRest ++ (c ++ tail))))) =
      1 := by
    rw [wsRun_cons_ws _ _ (by decide), List.cons_append,
      wsRun_cons_nonws _ _ (isPySpace_of_digit t0 ht0)]
  rw [hws, List.drop_succ_cons, List.drop_zero]
  apply greedyDigits_hit
  · rw [digitRun_append_nl _ _ htd]
    simp
  · rw [digitRun_append_nl _ _ htd, List.take_left, List.drop_left]
    exact stage4_render q (t0 :: tok') c tail hc ht

theorem stage2_render (q tok c tail : List Char) (htok : goodTok tok = true)
    (hc : goodSeg c = true)
    (ht : tail = [] ∨ ∃ u, tail = '\n' :: u ∧ startsWithCI qlit u = true) :
    stage2 q ('\n' :: (sRest ++ (tok ++ ('\n' :: (cRest ++ (c ++ tail)))))) =
      some ⟨q, tok, c, tail⟩ := by
  unfold stage2
  apply greedyWs_nl
  · intro x t hx
    rw [show sRest ++ (tok ++ ('\n' :: (cRest ++ (c ++ tail)))) =
      'S' :: ("core: ".data ++ (tok ++ ('\n' :: (cRest ++ (c ++ tail)))))
      from rfl] at hx
    injection hx with hx1 _
    rw [← hx1]
    decide
  · rw [show sRest ++ (tok ++ ('\n' :: (cRest ++ (c ++ tail)))) =
      'S' :: ("core: ".data ++ (tok ++ ('\n' :: (cRest ++ (c ++ tail)))))
      from rfl]
    exact wsRun_cons_nonws _ _ (by decide)
  · have e1 : sRest ++ (tok ++ ('\n' :: (cRest ++ (c ++ tail)))) =
        slit ++ (' ' :: (tok ++ ('\n' :: (cRest ++ (c ++ tail))))) := by
      simp [sRest, slit, List.append_assoc]
    rw [e1]
    have e2 : wsRun (slit ++ (' ' :: (tok ++ ('\n' ::
        (cRest ++ (c ++ tail)))))) = 0 := by
      rw [show slit ++ (' ' :: (tok ++ ('\n' :: (cRest ++ (c ++ tail))))) =
        'S' :: ("core:".data ++ (' ' :: (tok ++ ('\n' :: (cRest ++
          (c ++ tail)))))) from rfl]
      exact wsRun_cons_nonws _ _ (by decide)
    rw [greedyWs_zero _ _ e2, stripLitCI_refl]
    exact stage3_render q tok c tail htok hc ht

theorem stage1_render (b : Block) (tail : List Char) (hwf : WFBlock b)
    (ht : tail = [] ∨ ∃ u, tail = '\n' :: u ∧ startsWithCI qlit u = true) :
    stage1 (' ' :: (b.q ++ ('\n' :: (sRest ++ (b.scoreTok ++
      ('\n' :: (cRest ++ (b.c ++ tail)))))))) =
      some ⟨b.q, b.scoreTok, b.c, tail⟩ := by
  obtain ⟨hq, htok, hcseg⟩ := hwf
  obtain ⟨hqne, hqnl, hqhead, hqlast⟩ := goodSeg_parts b.q hq
  obtain ⟨q0, q', hqeq⟩ : ∃ q0 q', b.q = q0 :: q' := by
    cases hbq : b.q with
    | nil => exact absurd hbq hqne
    | cons q0 q' => exact ⟨q0, q', rfl⟩
  have hqhead' : isPySpace q0 = false := by
    rw [hqeq] at hqhead
    simpa using hqhead
  unfold stage1
  apply greedyWs_hit
  have hws : wsRun (' ' :: (b.q ++ ('\n' :: (sRest ++ (b.scoreTok ++
      ('\n' :: (cRest ++ (b.c ++ tail)))))))) = 1 := by
    rw [wsRun_cons_ws _ _ (by decide), hqeq, List.cons_append,
      wsRun_cons_nonws _ _ hqhead']
  rw [hws, List.drop_succ_cons, List.drop_zero]
  unfold lazyPlus
  refine lazyPlusGo_split _ _ _ b.q [] hqne ?_ ?_
  · intro a1 a2 he h1 h2
    have ha2nl : ∀ x ∈ a2, x ≠ '\n' := by
      intro x hx
      refine hqnl x ?_
      rw [← he]
      exact List.mem_append_right a1 hx
    have ha2last : isPySpace (a2.getLastD 'x') = false := by
      have := getLastD_append_right a1 a2 h2 'x'
      rw [he] at this
      rw [← this]
      exact hqlast
    simp only [List.nil_append]
    unfold stage2
    exact nlMatch_fail _ a2 _ h2 ha2nl ha2last
  · simp only [List.nil_append]
    exact stage2_render b.q b.scoreTok b.c tail htok hcseg ht

theorem matchBlock_render (b : Block) (tail : List Char) (hwf : WFBlock b)
    (ht : tail = [] ∨ ∃ u, tail = '\n' :: u ∧ startsWithCI qlit u = true) :
    matchBlock (renderBlock b ++ tail) =
      some ⟨b.q, b.scoreTok, b.c, tail⟩ := by
  unfold matchBlock
  rw [show renderBlock b ++ tail = qlit ++ (' ' :: (b.q ++ ('\n' ::
    (sRest ++ (b.scoreTok ++ ('\n' :: (cRest ++ (b.c ++ tail)))))))) from by
    simp [renderBlock, qlit, sRest, cRest, List.append_assoc]]
  rw [stripLitCI_refl]
  exact stage1_render b tail hwf ht

theorem matchBlock_nl_none (u : List Char) : matchBlock ('\n' :: u) = none := by
  unfold matchBlock
  rw [show qlit = 'Q' :: "uestion:".data from rfl, stripLitCI,
    if_neg (by decide)]

theorem findAll_renderBlocks : ∀ (bs : List Block),
    (∀ b ∈ bs, WFBlock b) →
    findAll (renderBlocks bs) = bs.map (fun b => (b.q, b.scoreTok, b.c)) := by
  intro bs
  induction bs with
  | nil => intro _; rfl
  | cons b bs ih =>
    intro hwf
    cases bs with
    | nil =>
      rw [show renderBlocks [b] = renderBlock b ++ [] from by
        simp [renderBlocks]]
      rw [findAll_eq,
        matchBlock_render b [] (hwf b (List.mem_cons_self b [])) (Or.inl rfl)]
      rfl
    | cons b2 bs' =>
      rw [show renderBlocks (b :: b2 :: bs') =
        renderBlock b ++ ('\n' :: renderBlocks (b2 :: bs')) from rfl]
      have hstart : startsWithCI qlit (renderBlocks (b2 :: bs')) = true := by
        have : ∃ y, renderBlocks (b2 :: bs') = qlit ++ y := by
          cases bs' with
          | nil =>
            exact ⟨(' ' :: (b2.q ++ ('\n' :: (sRest ++ (b2.scoreTok ++
              ('\n' :: (cRest ++ (b2.c ++ [])))))))), by
              simp [renderBlocks, renderBlock, qlit, sRest, cRest,
                List.append_assoc]⟩
          | cons b3 bs'' =>
            exact ⟨(' ' :: (b2.q ++ ('\n' :: (sRest ++ (b2.scoreTok ++
              ('\n' :: (cRest ++ (b2.c ++
                ('\n' :: renderBlocks (b3 :: bs'')))))))))), by
              simp [renderBlocks, renderBlock, qlit, sRest, cRest,
                List.append_assoc]⟩
        obtain ⟨y, hy⟩ := this
        rw [hy]
        exact startsWithCI_append qlit y
      rw [findAll_eq,
        matchBlock_render b ('\n' :: renderBlocks (b2 :: bs'))
          (hwf b (List.mem_cons_self b _))
          (Or.inr ⟨renderBlocks (b2 :: bs'), rfl, hstart⟩)]
      simp only
      rw [findAll_eq ('\n' :: renderBlocks (b2 :: bs')), matchBlock_nl_none]
      show (b.q, b.scoreTok, b.c) :: findAll (renderBlocks (b2 :: bs')) = _
      rw [ih (fun x hx => hwf x (List.mem_cons_of_mem b hx))]
      rfl

theorem convertAll_renderBlocks : ∀ (bs : List Block),
    (∀ b ∈ bs, WFBlock b) →
    convertAll (bs.map (fun b => (b.q, b.scoreTok, b.c))) =
      .ok (bs.map blockRecord) := by
  intro bs
  induction bs with
  | nil => intro _; rfl
  | cons b bs ih =>
    intro hwf
    obtain ⟨htne, htd⟩ :=
      goodTok_parts b.scoreTok (hwf b (List.mem_cons_self b _)).2.1
    have hpi : pyInt? b.scoreTok = some (digitsToNat b.scoreTok) := by
      unfold pyInt?
      have h1 : b.scoreTok.isEmpty = false := by
        cases hb : b.scoreTok with
        | nil => exact absurd hb htne
        | cons a u => rfl
      rw [if_pos (by simp [h1, htd])]
    simp only [List.map_cons, convertAll, hpi,
      ih (fun x hx => hwf x (List.mem_cons_of_mem b hx))]
    rfl

theorem parse_renderBlocks (bs : List Block) (h : ∀ b ∈ bs, WFBlock b) :
    parse_full_report ⟨renderBlocks bs⟩ =
      .ok (bs.map blockRecord, extractRemaining ⟨renderBlocks bs⟩) := by
  unfold parse_full_report
  rw [show (String.mk (renderBlocks bs)).data = renderBlocks bs from rfl]
  rw [findAll_renderBlocks bs h, convertAll_renderBlocks bs h]

/-- C2: for every narrative consisting of N well-formed
"Question/Score/Comment" blocks, `parse_full_report` succeeds and returns
exactly N records, in the order the blocks appear, and each record's score
is the integer parsed from that block's score token (`blockRecord` maps a
block to its record: question with "Your " removed and trimmed, the score
token's numeric value, comment trimmed with newlines collapsed). -/
theorem claim_C2_wellformed_blocks (bs : List Block)
    (h : ∀ b ∈ bs, WFBlock b) :
    ∃ rem, parse_full_report ⟨renderBlocks bs⟩ =
      .ok (bs.map blockRecord, rem) :=
  ⟨_, parse_renderBlocks bs h⟩

/-- Two concrete well-formed blocks used to witness C2. -/
def demoBlocks : List Block :=
  [⟨"Your leadership".data, "8".data, "solid answers".data⟩,
   ⟨"conflict handling".data, "10".data, "very good".data⟩]

theorem claim_C2_witness :
    (∀ b ∈ demoBlocks, WFBlock b) ∧
    ∃ rem, parse_full_report ⟨renderBlocks demoBlocks⟩ =
      .ok (demoBlocks.map blockRecord, rem) :=
  ⟨by decide, claim_C2_wellformed_blocks demoBlocks (by decide)⟩

theorem claim_C4_amended_witness :
    extractRemaining "2.  Overall Evaluation: two" =
      specRemainder "2.  Overall Evaluation: two" :=
  claim_C4_amended "2.  Overall Evaluation: two"

theorem claim_C5_witness :
    bandOfHex (chartBarColor 3) = some (specBand 3) ∧
    bandOfName (tableScoreColor 6) = some (specBand 6) :=
  ⟨(claim_C5_color_bands.1 3).1, (claim_C5_color_bands.1 6).2⟩

theorem claim_C6_witness :
    bandOfHex (chartBarColor 4) = bandOfName (tableScoreColor 4) :=
  claim_C6_policies_agree.1 4

theorem claim_C7_witness :
    create_score_chart [] = none ∧ create_qa_table [] = none ∧
    buildStory [] "Overall Evaluation: ok" =
      [Flowable.nextPageTemplate "Later"] ++
        (if "Overall Evaluation: ok" = ("" : String) then []
         else [Flowable.paragraph (formatRemaining "Overall Evaluation: ok")
           "Body"]) ∧
    (buildStory [] "Overall Evaluation: ok").all (fun f =>
      match f with
      | Flowable.chart _ => false
      | Flowable.tableOpt _ => false
      | Flowable.paragraph t st =>
          !(st == "Head" && (t == "<b>Score Overview</b>" ||
            t == "<b>Detailed Question Analysis</b>"))
      | _ => true) = true :=
  claim_C7_empty_records "Overall Evaluation: ok"

set_option maxRecDepth 100000 in
/-- C8: a non-integer score token cannot be captured by the score group
(`\d+` only matches digit runs), so the block simply does not match: the
parse succeeds with no records and the request produces a document, not an
internal failure. -/
theorem claim_C8_counterexample :
    parse_full_report C8text = .ok ([], "") ∧
    generate_report_api (some
      [("candidate_name", "A"), ("candidate_position", "B"), ("date", "C"),
       ("interview_id", "D"), ("ai_overview", C8text)]) =
      .document "Report_D.pdf" [.nextPageTemplate "Later"] :=
  ⟨rfl, rfl⟩

end Report
